import Mathlib

/-!
A shallow embedding of the goedesearch engine (src/filters.rs and
src/engine.rs) and proofs about the claims of its specification.

Modelling conventions:
* Rust `String`/`&str` text is modelled as `List Char` so that every
  operation is structural recursion the kernel can evaluate.
* Rust `HashMap` is modelled as an association list queried with `alookup`
  (first matching key) and updated with `ainsert` (replace first matching
  key, else append); `HashSet<DocumentId>` is modelled as a duplicate-free
  `List Nat` whose list order stands for the (arbitrary) iteration order of
  the hash set.
* `f64` term-frequency counters only ever hold `1.0` and are incremented by
  `1.0`, so they are exact small integers; they are modelled as `Nat`.
* `f64` scores are modelled as exact rationals, with the external `log10`
  function kept abstract as a parameter `l10 : ℚ → ℚ`.
* The English stemmer of the external `rust_stemmers` crate is kept
  abstract as a parameter `stem : List Char → List Char`.
* The external `url` parser and `crc64` digest of the `crc` crate are kept
  abstract as parameters `parseUrl` and `crc64`.
* Rust panics (`unwrap` on `Err`/`None`) are modelled as `Option.none`.
-/

namespace Goedesearch

/-- Text is modelled as the list of its characters. -/
abbrev Str := List Char

/-- Model of `HashMap` lookup: first entry whose key matches. -/
def alookup {α β : Type} [DecidableEq α] (k : α) : List (α × β) → Option β
  | [] => none
  | (k2, v) :: rest => if k2 = k then some v else alookup k rest

/-- Model of `HashMap::insert`: replace the first entry with the key, else append. -/
def ainsert {α β : Type} [DecidableEq α] (k : α) (v : β) : List (α × β) → List (α × β)
  | [] => [(k, v)]
  | (k2, v2) :: rest => if k2 = k then (k, v) :: rest else (k2, v2) :: ainsert k v rest

/-- Model of `HashSet::insert` on a list that stands for the set's iteration order. -/
def sinsert (x : ℕ) (s : List ℕ) : List ℕ :=
  if x ∈ s then s else s ++ [x]

namespace Filters

/-- The hard-coded `STOPWORDS` list of src/filters.rs. -/
def STOPWORDS : List Str :=
  ["the".data, "be".data, "to".data, "of".data, "and".data, "a".data, "in".data,
   "that".data, "have".data, "i".data, "it".data, "for".data, "not".data, "on".data,
   "with".data, "he".data, "as".data, "you".data, "do".data, "at".data, "this".data,
   "but".data, "his".data, "by".data, "from".data, "wikipedia".data]

/-- Rust `char::is_ascii_punctuation`: U+0021..U+002F, U+003A..U+0040,
U+005B..U+0060, U+007B..U+007E. -/
def isAsciiPunct (c : Char) : Bool :=
  (0x21 ≤ c.toNat && c.toNat ≤ 0x2F) || (0x3A ≤ c.toNat && c.toNat ≤ 0x40) ||
  (0x5B ≤ c.toNat && c.toNat ≤ 0x60) || (0x7B ≤ c.toNat && c.toNat ≤ 0x7E)

/-- ASCII case folding of one character; Rust `str::to_lowercase` additionally
folds non-ASCII letters, which no claim exercises. -/
def lowerChar (c : Char) : Char :=
  if 'A' ≤ c ∧ c ≤ 'Z' then Char.ofNat (c.toNat + 32) else c

/-- `tokenize` of src/filters.rs: `text.split(' ').collect()`.  Splitting is on
the ASCII space character only; the empty text yields one empty token, exactly
as Rust `str::split`. -/
def tokenize : Str → List Str
  | [] => [[]]
  | c :: rest =>
    match tokenize rest with
    | [] => [[]]
    | t :: ts => if c = ' ' then [] :: t :: ts else (c :: t) :: ts

/-- `lowercase` of src/filters.rs. -/
def lowercase (tokens : List Str) : List Str :=
  tokens.map (fun t => t.map lowerChar)

/-- `punctuation` of src/filters.rs: drop every ASCII punctuation character of
each token, keeping all other characters. -/
def punctuation (tokens : List Str) : List Str :=
  tokens.map (fun t => t.filter (fun c => !(isAsciiPunct c)))

/-- `stopwords` of src/filters.rs: drop tokens that occur in `STOPWORDS`. -/
def stopwords (tokens : List Str) : List Str :=
  tokens.filter (fun t => !(STOPWORDS.contains t))

/-- `stems` of src/filters.rs, with the external English stemmer abstract. -/
def stems (stem : Str → Str) (tokens : List Str) : List Str :=
  tokens.map stem

/-- `filter` of src/filters.rs: the five-stage normalization pipeline. -/
def filter (stem : Str → Str) (text : Str) : List Str :=
  stems stem (stopwords (punctuation (lowercase (tokenize text))))

end Filters

/-- The `Article` structure of src/engine.rs (`r#abstract` is `abstr` here,
the parsed `Url` is kept as its text). -/
structure Article where
  id : Option ℕ
  title : Str
  abstr : Str
  url : Option Str
deriving DecidableEq

/-- `Article::default()`. -/
def defaultArticle : Article :=
  { id := none, title := [], abstr := [], url := none }

/-- `Article::id()`: `self.id.unwrap_or(0)`. -/
def Article.getId (a : Article) : ℕ :=
  a.id.getD 0

/-- `Article::fulltext()`: `format!("{} {}", title, abstract)`. -/
def Article.fulltext (a : Article) : Str :=
  a.title ++ [' '] ++ a.abstr

/-- `Article::set_url` of src/engine.rs.  The source runs
`Url::parse(url).unwrap()` — a parse failure panics (modelled as `none`);
on success the id becomes the CRC-64 digest of the parsed URL.  The external
parser and digest are parameters. -/
def setUrl (parseUrl : Str → Option Str) (crc64 : Str → ℕ)
    (a : Article) (url : Str) : Option Article :=
  match parseUrl url with
  | none => none
  | some u => some { a with url := some u, id := some (crc64 u) }

/-- The `Index` structure of src/engine.rs.  `documents`, `freq` and `index`
are the three hash tables, as association lists. -/
structure Index where
  documents : List (ℕ × Article)
  freq : List ((ℕ × Str) × ℕ)
  index : List (Str × List ℕ)
deriving DecidableEq

/-- `Index::new()`. -/
def Index.new : Index :=
  { documents := [], freq := [], index := [] }

/-- `Index::size()`. -/
def Index.size (i : Index) : ℕ :=
  i.documents.length

/-- `Index::document()`. -/
def Index.document (i : Index) (id : ℕ) : Option Article :=
  alookup id i.documents

/-- The body of the token loop of `Index::index_document`: bump the
`freq` counter of `(id, token)` (starting at 1) and insert `id` into the
postings set of `token` (creating it empty first when absent). -/
def indexToken (id : ℕ) (fi : List ((ℕ × Str) × ℕ) × List (Str × List ℕ))
    (token : Str) : List ((ℕ × Str) × ℕ) × List (Str × List ℕ) :=
  let freq2 :=
    match alookup (id, token) fi.1 with
    | none => ainsert (id, token) 1 fi.1
    | some f => ainsert (id, token) (f + 1) fi.1
  let index2 :=
    match alookup token fi.2 with
    | none => ainsert token (sinsert id []) fi.2
    | some s => ainsert token (sinsert id s) fi.2
  (freq2, index2)

/-- `Index::index_document` of src/engine.rs: skip when the id is already a
key of `documents`, otherwise index every token of the normalized full text
and store the article. -/
def indexDocument (stem : Str → Str) (i : Index) (article : Article) : Index :=
  let id := article.getId
  if (alookup id i.documents).isSome then i
  else
    let tokens := Filters.filter stem article.fulltext
    let fi := tokens.foldl (indexToken id) (i.freq, i.index)
    { documents := ainsert id article i.documents, freq := fi.1, index := fi.2 }

/-- `Index::index_document` with its `Result` type: the source always returns
`Ok(())`, so the model always returns the new state under `Except.ok`. -/
def indexDocumentR (stem : Str → Str) (i : Index) (article : Article) :
    Except String Index :=
  Except.ok (indexDocument stem i article)

/-- The posting-set collection loop of `Index::query_index`: the posting set
of each normalized token that has an entry in `index`, in token order; absent
tokens contribute nothing. -/
def collectSets (i : Index) (tokens : List Str) : List (List ℕ) :=
  tokens.filterMap (fun t => alookup t i.index)

/-- The candidate computation of `Index::query_index`: no collected set gives
the empty set, otherwise the members of `sets[0]` that are members of every
set of `sets[1..]`. -/
def candidates (i : Index) (tokens : List Str) : List ℕ :=
  match collectSets i tokens with
  | [] => []
  | s :: rest => s.filter (fun b => rest.all (fun set => decide (b ∈ set)))

/-- The scoring loop of `Index::query_index` for one document: over the
normalized query tokens in order, every token with a `freq` entry `tf`
contributes `idf * tf` with `idf = log10(total_docs / tf)`; `log10` is the
abstract parameter `l10`. -/
def score (l10 : ℚ → ℚ) (i : Index) (tokens : List Str) (id : ℕ) : ℚ :=
  tokens.foldl
    (fun acc token =>
      match alookup (id, token) i.freq with
      | some tf => acc + l10 ((i.documents.length : ℚ) / (tf : ℚ)) * (tf : ℚ)
      | none => acc)
    0

/-- One step of the model of `sort_by(|a, b| b.1.partial_cmp(&a.1)...)`: place
a scored pair after every pair of at least its score.  Scores are never NaN,
so the Rust comparator is the total descending order on scores and the sort is
stable. -/
def insertByScore (p : ℕ × ℚ) : List (ℕ × ℚ) → List (ℕ × ℚ)
  | [] => [p]
  | q :: rest => if p.2 ≤ q.2 then q :: insertByScore p rest else p :: q :: rest

/-- Stable sort by descending score, the model of the source's
`results.sort_by(...)`. -/
def sortByScoreDesc (l : List (ℕ × ℚ)) : List (ℕ × ℚ) :=
  l.foldl (fun acc p => insertByScore p acc) []

/-- The ranking phase of `Index::query_index`, taking the iteration order
`cands` of the candidate hash set as an explicit argument (hash-set iteration
order is arbitrary): score every candidate, sort stably by descending score,
return the ids. -/
def queryIndexEnum (l10 : ℚ → ℚ) (stem : Str → Str) (i : Index)
    (query : Str) (cands : List ℕ) : List ℕ :=
  let normalized := Filters.filter stem query
  let results := cands.map (fun id => (id, score l10 i normalized id))
  (sortByScoreDesc results).map Prod.fst

/-- `Index::query_index` of src/engine.rs, with the candidate list order used
as the iteration order. -/
def queryIndex (l10 : ℚ → ℚ) (stem : Str → Str) (i : Index) (query : Str) :
    List ℕ :=
  queryIndexEnum l10 stem i query (candidates i (Filters.filter stem query))

/-- The XML events of the `Index::from_file` loop that the loop inspects. -/
inductive XmlEvent where
  | startDoc : XmlEvent
  | titleEv : Str → XmlEvent
  | abstractEv : Str → XmlEvent
  | urlEv : Str → XmlEvent
  | endDoc : XmlEvent
deriving DecidableEq

/-- One iteration of the `Index::from_file` event loop.  The state is `none`
once the process has panicked, else the open article (if any) and the index
built so far.  `<url>` runs `set_url(..).unwrap()` — an unparseable URL
panics; `</doc>` runs `article.unwrap()` — a missing article panics. -/
def processEvent (parseUrl : Str → Option Str) (crc64 : Str → ℕ)
    (stem : Str → Str) (st : Option (Option Article × Index)) (e : XmlEvent) :
    Option (Option Article × Index) :=
  match st with
  | none => none
  | some (art, idx) =>
    match e with
    | .startDoc => some (some defaultArticle, idx)
    | .titleEv s =>
      match art with
      | some a => some (some { a with title := s }, idx)
      | none => some (none, idx)
    | .abstractEv s =>
      match art with
      | some a => some (some { a with abstr := s }, idx)
      | none => some (none, idx)
    | .urlEv u =>
      match art with
      | some a =>
        match setUrl parseUrl crc64 a u with
        | some a2 => some (some a2, idx)
        | none => none
      | none => some (none, idx)
    | .endDoc =>
      match art with
      | some a => some (none, indexDocument stem idx a)
      | none => none

/-- `Index::from_file` of src/engine.rs over an already-decoded event stream:
fold the event loop from an empty index; `none` is a panic that aborts the
whole build. -/
def fromEvents (parseUrl : Str → Option Str) (crc64 : Str → ℕ)
    (stem : Str → Str) (events : List XmlEvent) : Option Index :=
  (events.foldl (processEvent parseUrl crc64 stem) (some (none, Index.new))).map
    (fun p => p.2)

/-! Lemmas about the association-list and set models. -/

theorem alookup_ainsert_self {α β : Type} [DecidableEq α] (k : α) (v : β)
    (m : List (α × β)) : alookup k (ainsert k v m) = some v := by
  induction m with
  | nil => simp [alookup, ainsert]
  | cons e rest ih =>
    by_cases h : e.1 = k
    · simp [ainsert, h, alookup]
    · simp [ainsert, h, alookup, ih]

theorem alookup_ainsert_ne {α β : Type} [DecidableEq α] {k2 k : α} (v : β)
    (m : List (α × β)) (h : k2 ≠ k) :
    alookup k (ainsert k2 v m) = alookup k m := by
  induction m with
  | nil => simp [alookup, ainsert, h]
  | cons e rest ih =>
    rcases e with ⟨ek, ev⟩
    by_cases he : ek = k2
    · subst he
      simp only [ainsert, if_pos rfl, alookup, if_neg h]
    · simp only [ainsert, if_neg he, alookup]
      by_cases hek : ek = k
      · simp only [if_pos hek]
      · simp only [if_neg hek]
        exact ih

theorem isSome_alookup_ainsert {α β : Type} [DecidableEq α] (k2 k : α) (v : β)
    (m : List (α × β)) (h : (alookup k m).isSome = true) :
    (alookup k (ainsert k2 v m)).isSome = true := by
  by_cases hk : k2 = k
  · subst hk; rw [alookup_ainsert_self]; rfl
  · rw [alookup_ainsert_ne v m hk]; exact h

theorem alookup_mem {α β : Type} [DecidableEq α] {k : α} {v : β} :
    ∀ {m : List (α × β)}, alookup k m = some v → (k, v) ∈ m := by
  intro m
  induction m with
  | nil => intro h; simp [alookup] at h
  | cons e rest ih =>
    rcases e with ⟨ek, ev⟩
    intro h
    simp only [alookup] at h
    by_cases he : ek = k
    · rw [if_pos he] at h
      subst he
      injection h with h2
      subst h2
      exact List.mem_cons_self _ _
    · rw [if_neg he] at h
      exact List.mem_cons_of_mem _ (ih h)

theorem mem_sinsert {x y : ℕ} {s : List ℕ} :
    x ∈ sinsert y s ↔ x = y ∨ x ∈ s := by
  unfold sinsert
  by_cases h : y ∈ s
  · simp only [if_pos h]
    constructor
    · exact Or.inr
    · rintro (rfl | hx)
      · exact h
      · exact hx
  · simp [if_neg h, or_comm]

theorem nodup_sinsert {s : List ℕ} (y : ℕ) (h : s.Nodup) :
    (sinsert y s).Nodup := by
  unfold sinsert
  by_cases hy : y ∈ s
  · simpa [if_pos hy]
  · rw [if_neg hy]
    have hiff : (s ++ [y]).Nodup ↔ s.Nodup ∧ y ∉ s := by
      simp [List.nodup_append]
    exact hiff.mpr ⟨h, hy⟩

/-! Lemmas about the stable descending sort. -/

theorem insertByScore_perm (p : ℕ × ℚ) (l : List (ℕ × ℚ)) :
    (insertByScore p l).Perm (p :: l) := by
  induction l with
  | nil => simp [insertByScore]
  | cons q rest ih =>
    by_cases h : p.2 ≤ q.2
    · rw [insertByScore, if_pos h]
      exact (ih.cons q).trans (List.Perm.swap p q rest)
    · rw [insertByScore, if_neg h]

theorem foldl_insertByScore_perm (l acc : List (ℕ × ℚ)) :
    (l.foldl (fun acc p => insertByScore p acc) acc).Perm (acc ++ l) := by
  induction l generalizing acc with
  | nil => simp
  | cons p rest ih =>
    rw [List.foldl_cons]
    refine (ih (insertByScore p acc)).trans ?_
    refine (List.Perm.append_right rest (insertByScore_perm p acc)).trans ?_
    exact List.perm_middle.symm

theorem sortByScoreDesc_perm (l : List (ℕ × ℚ)) :
    (sortByScoreDesc l).Perm l := by
  simpa [sortByScoreDesc] using foldl_insertByScore_perm l []

theorem insertByScore_pairwise {l : List (ℕ × ℚ)} (p : ℕ × ℚ)
    (h : l.Pairwise (fun a b => b.2 ≤ a.2)) :
    (insertByScore p l).Pairwise (fun a b => b.2 ≤ a.2) := by
  induction l with
  | nil => simp [insertByScore]
  | cons q rest ih =>
    rcases List.pairwise_cons.mp h with ⟨hq, hrest⟩
    by_cases hpq : p.2 ≤ q.2
    · rw [insertByScore, if_pos hpq]
      refine List.pairwise_cons.mpr ⟨?_, ih hrest⟩
      intro x hx
      rcases List.mem_cons.mp ((insertByScore_perm p rest).mem_iff.mp hx) with hxp | hxr
      · rw [hxp]; exact hpq
      · exact hq x hxr
    · rw [insertByScore, if_neg hpq]
      push_neg at hpq
      refine List.pairwise_cons.mpr ⟨?_, h⟩
      intro x hx
      rcases List.mem_cons.mp hx with hxq | hxr
      · rw [hxq]; exact le_of_lt hpq
      · exact (hq x hxr).trans (le_of_lt hpq)

theorem sortByScoreDesc_pairwise (l : List (ℕ × ℚ)) :
    (sortByScoreDesc l).Pairwise (fun a b => b.2 ≤ a.2) := by
  have main : ∀ (l acc : List (ℕ × ℚ)), acc.Pairwise (fun a b => b.2 ≤ a.2) →
      (l.foldl (fun acc p => insertByScore p acc) acc).Pairwise (fun a b => b.2 ≤ a.2) := by
    intro l
    induction l with
    | nil => intro acc h; exact h
    | cons p rest ih =>
      intro acc h
      rw [List.foldl_cons]
      exact ih _ (insertByScore_pairwise p h)
  exact main l [] (by simp)

/-- Two lists that are permutations of each other, both pairwise-ordered by a
relation that is antisymmetric on their members, are equal. -/
theorem pairwise_perm_eq {α : Type} {R : α → α → Prop} (l1 : List α) :
    ∀ l2, l1.Perm l2 → l1.Pairwise R → l2.Pairwise R →
      (∀ a ∈ l1, ∀ b ∈ l1, R a b → R b a → a = b) → l1 = l2 := by
  induction l1 with
  | nil =>
    intro l2 hp _ _ _
    exact (hp.symm.eq_nil).symm
  | cons a t1 ih =>
    intro l2 hp h1 h2 anti
    have ha : a ∈ l2 := hp.mem_iff.mp (List.mem_cons_self a t1)
    cases l2 with
    | nil => simp at ha
    | cons b t2 =>
      rcases List.pairwise_cons.mp h1 with ⟨ha1, ht1⟩
      rcases List.pairwise_cons.mp h2 with ⟨hb2, ht2⟩
      by_cases hab : a = b
      · subst hab
        have heq : t1 = t2 :=
          ih t2 hp.cons_inv ht1 ht2
            (fun x hx y hy => anti x (List.mem_cons_of_mem a hx) y (List.mem_cons_of_mem a hy))
        rw [heq]
      · have hat2 : a ∈ t2 := by
          rcases List.mem_cons.mp ha with h | h
          · exact absurd h hab
          · exact h
        have hbt1 : b ∈ t1 := by
          have hb : b ∈ a :: t1 := hp.symm.mem_iff.mp (List.mem_cons_self b t2)
          rcases List.mem_cons.mp hb with h | h
          · exact absurd h.symm hab
          · exact h
        exact absurd
          (anti a (List.mem_cons_self a t1) b (List.mem_cons_of_mem a hbt1)
            (ha1 b hbt1) (hb2 a hat2)) hab

/-! Lemmas about scoring and the ranking phase. -/

theorem score_foldl (l10 : ℚ → ℚ) (i : Index) (id : ℕ) (tokens : List Str) :
    ∀ acc : ℚ,
      tokens.foldl
        (fun acc token =>
          match alookup (id, token) i.freq with
          | some tf => acc + l10 ((i.documents.length : ℚ) / (tf : ℚ)) * (tf : ℚ)
          | none => acc)
        acc
      = acc + (tokens.map (fun t =>
          match alookup (id, t) i.freq with
          | some tf => l10 ((i.documents.length : ℚ) / (tf : ℚ)) * (tf : ℚ)
          | none => (0 : ℚ))).sum := by
  induction tokens with
  | nil => intro acc; simp
  | cons t rest ih =>
    intro acc
    rw [List.foldl_cons, List.map_cons, List.sum_cons]
    cases halk : alookup (id, t) i.freq with
    | none => simp only [ih]; ring
    | some tf => simp only [ih]; ring

theorem score_eq_sum (l10 : ℚ → ℚ) (i : Index) (tokens : List Str) (id : ℕ) :
    score l10 i tokens id = (tokens.map (fun t =>
      match alookup (id, t) i.freq with
      | some tf => l10 ((i.documents.length : ℚ) / (tf : ℚ)) * (tf : ℚ)
      | none => (0 : ℚ))).sum := by
  rw [score, score_foldl, zero_add]

theorem queryIndexEnum_perm (l10 : ℚ → ℚ) (stem : Str → Str) (i : Index)
    (q : Str) (cands : List ℕ) :
    (queryIndexEnum l10 stem i q cands).Perm cands := by
  unfold queryIndexEnum
  refine ((sortByScoreDesc_perm _).map Prod.fst).trans ?_
  rw [List.map_map]
  have hcomp : (Prod.fst ∘ fun id : ℕ => (id, score l10 i (Filters.filter stem q) id)) =
      fun id : ℕ => id := rfl
  rw [hcomp, List.map_id']

/-! The consistency invariant of the spec's data-model section and its
preservation by ingestion. -/

/-- Consistency of the `freq` and `index` tables: a `(doc_id, term)` key is
present in `freq` with a positive count exactly when `doc_id` is a member of
the postings set of `term`. -/
def ConsistentFI (f : List ((ℕ × Str) × ℕ)) (x : List (Str × List ℕ)) : Prop :=
  ∀ id t, (∃ c, alookup (id, t) f = some c ∧ 0 < c) ↔
    ∃ s, alookup t x = some s ∧ id ∈ s

/-- Every document id of every postings set of `x` satisfies `P`. -/
def CoveredBy (x : List (Str × List ℕ)) (P : ℕ → Prop) : Prop :=
  ∀ t s, alookup t x = some s → ∀ id ∈ s, P id

/-- The full index-consistency invariant: `freq` and `index` agree, and every
document id of a postings set is a key of `documents`. -/
def Index.Consistent (i : Index) : Prop :=
  ConsistentFI i.freq i.index ∧
  CoveredBy i.index (fun id => (alookup id i.documents).isSome = true)

theorem indexToken_fst (id : ℕ) (tok : Str)
    (fi : List ((ℕ × Str) × ℕ) × List (Str × List ℕ)) :
    (indexToken id fi tok).1 =
      ainsert (id, tok) ((alookup (id, tok) fi.1).getD 0 + 1) fi.1 := by
  unfold indexToken
  cases h : alookup (id, tok) fi.1 <;> simp [h]

theorem indexToken_snd (id : ℕ) (tok : Str)
    (fi : List ((ℕ × Str) × ℕ) × List (Str × List ℕ)) :
    (indexToken id fi tok).2 =
      ainsert tok (sinsert id ((alookup tok fi.2).getD [])) fi.2 := by
  unfold indexToken
  cases h : alookup tok fi.2 <;> simp [h]

theorem indexToken_consistentFI (id : ℕ) (tok : Str)
    {fi : List ((ℕ × Str) × ℕ) × List (Str × List ℕ)}
    (h : ConsistentFI fi.1 fi.2) :
    ConsistentFI (indexToken id fi tok).1 (indexToken id fi tok).2 := by
  intro id2 t2
  rw [indexToken_fst, indexToken_snd]
  by_cases ht : t2 = tok
  · subst ht
    by_cases hid : id2 = id
    · subst hid
      constructor
      · intro _
        exact ⟨sinsert id2 ((alookup t2 fi.2).getD []), alookup_ainsert_self _ _ _,
          mem_sinsert.mpr (Or.inl rfl)⟩
      · intro _
        exact ⟨(alookup (id2, t2) fi.1).getD 0 + 1, alookup_ainsert_self _ _ _,
          Nat.succ_pos _⟩
    · have hkey : ((id, t2) : ℕ × Str) ≠ (id2, t2) := by
        intro hk
        exact hid (congrArg Prod.fst hk).symm
      rw [alookup_ainsert_ne _ _ hkey, alookup_ainsert_self]
      cases hx : alookup t2 fi.2 with
      | none =>
        have hold := h id2 t2
        rw [hx] at hold
        simp only [Option.getD_none]
        constructor
        · intro hex
          rcases hold.mp hex with ⟨s, hs, _⟩
          exact absurd hs (by simp)
        · rintro ⟨s, hs, hmem⟩
          rcases Option.some_inj.mp hs
          rcases mem_sinsert.mp hmem with hh | hh
          · exact absurd hh hid
          · simp at hh
      | some s0 =>
        have hold := h id2 t2
        rw [hx] at hold
        simp only [Option.getD_some]
        constructor
        · intro hex
          rcases hold.mp hex with ⟨s, hs, hmem⟩
          rcases Option.some_inj.mp hs
          exact ⟨sinsert id s0, rfl, mem_sinsert.mpr (Or.inr hmem)⟩
        · rintro ⟨s, hs, hmem⟩
          rcases Option.some_inj.mp hs
          rcases mem_sinsert.mp hmem with hh | hh
          · exact absurd hh hid
          · exact hold.mpr ⟨s0, rfl, hh⟩
  · have hkey : ((id, tok) : ℕ × Str) ≠ (id2, t2) := by
      intro hk
      exact ht (congrArg Prod.snd hk).symm
    rw [alookup_ainsert_ne _ _ hkey, alookup_ainsert_ne _ _ (fun hk => ht hk.symm)]
    exact h id2 t2

theorem foldl_indexToken_consistentFI (id : ℕ) (tokens : List Str) :
    ∀ (fi : List ((ℕ × Str) × ℕ) × List (Str × List ℕ)),
      ConsistentFI fi.1 fi.2 →
      ConsistentFI (tokens.foldl (indexToken id) fi).1
        (tokens.foldl (indexToken id) fi).2 := by
  induction tokens with
  | nil => intro fi h; exact h
  | cons t rest ih =>
    intro fi h
    rw [List.foldl_cons]
    exact ih _ (indexToken_consistentFI id t h)

theorem coveredBy_mono {x : List (Str × List ℕ)} {P Q : ℕ → Prop}
    (h : CoveredBy x P) (hpq : ∀ j, P j → Q j) : CoveredBy x Q :=
  fun t s hs id hid => hpq id (h t s hs id hid)

theorem indexToken_coveredBy (id : ℕ) (tok : Str)
    {fi : List ((ℕ × Str) × ℕ) × List (Str × List ℕ)} {P : ℕ → Prop}
    (h : CoveredBy fi.2 P) :
    CoveredBy (indexToken id fi tok).2 (fun j => P j ∨ j = id) := by
  rw [indexToken_snd]
  intro t s hs j hj
  by_cases ht : tok = t
  · subst ht
    rw [alookup_ainsert_self] at hs
    rcases Option.some_inj.mp hs
    rcases mem_sinsert.mp hj with hh | hh
    · exact Or.inr hh
    · cases hx : alookup tok fi.2 with
      | none => rw [hx] at hh; simp at hh
      | some s0 =>
        rw [hx] at hh
        exact Or.inl (h tok s0 hx j hh)
  · rw [alookup_ainsert_ne _ _ ht] at hs
    exact Or.inl (h t s hs j hj)

theorem foldl_indexToken_coveredBy (id : ℕ) (tokens : List Str) :
    ∀ (fi : List ((ℕ × Str) × ℕ) × List (Str × List ℕ)) (P : ℕ → Prop),
      CoveredBy fi.2 P →
      CoveredBy (tokens.foldl (indexToken id) fi).2 (fun j => P j ∨ j = id) := by
  induction tokens with
  | nil =>
    intro fi P h
    exact coveredBy_mono h (fun j hj => Or.inl hj)
  | cons t rest ih =>
    intro fi P h
    rw [List.foldl_cons]
    exact coveredBy_mono (ih _ _ (indexToken_coveredBy id t h))
      (fun j hj => by
        rcases hj with (hj | hj) | hj
        · exact Or.inl hj
        · exact Or.inr hj
        · exact Or.inr hj)

/-! Well-formedness of the postings lists, for the query-result claims. -/

/-- Every postings entry is a duplicate-free set of ids that are keys of the
document store. -/
def Index.WF (i : Index) : Prop :=
  ∀ e ∈ i.index, e.2.Nodup ∧ ∀ id ∈ e.2, (alookup id i.documents).isSome = true

/-- The entry-wise induction form of `Index.WF` over the postings table alone,
with an abstract predicate on the ids. -/
def WFEntries (x : List (Str × List ℕ)) (P : ℕ → Prop) : Prop :=
  ∀ e ∈ x, e.2.Nodup ∧ ∀ id ∈ e.2, P id

theorem mem_ainsert {α β : Type} [DecidableEq α] {e : α × β} {k : α} {v : β} :
    ∀ {m : List (α × β)}, e ∈ ainsert k v m → e = (k, v) ∨ e ∈ m := by
  intro m
  induction m with
  | nil =>
    intro h
    simp [ainsert] at h
    exact Or.inl h
  | cons e2 rest ih =>
    rcases e2 with ⟨ek, ev⟩
    intro h
    simp only [ainsert] at h
    by_cases hek : ek = k
    · rw [if_pos hek] at h
      rcases List.mem_cons.mp h with hh | hh
      · exact Or.inl hh
      · exact Or.inr (List.mem_cons_of_mem _ hh)
    · rw [if_neg hek] at h
      rcases List.mem_cons.mp h with hh | hh
      · exact Or.inr (hh ▸ List.mem_cons_self _ _)
      · rcases ih hh with hh2 | hh2
        · exact Or.inl hh2
        · exact Or.inr (List.mem_cons_of_mem _ hh2)

theorem wfEntries_mono {x : List (Str × List ℕ)} {P Q : ℕ → Prop}
    (h : WFEntries x P) (hpq : ∀ j, P j → Q j) : WFEntries x Q :=
  fun e he => ⟨(h e he).1, fun j hj => hpq j ((h e he).2 j hj)⟩

theorem indexToken_wfEntries (id : ℕ) (tok : Str)
    {fi : List ((ℕ × Str) × ℕ) × List (Str × List ℕ)} {P : ℕ → Prop}
    (h : WFEntries fi.2 P) :
    WFEntries (indexToken id fi tok).2 (fun j => P j ∨ j = id) := by
  rw [indexToken_snd]
  intro e he
  rcases mem_ainsert he with rfl | he2
  · constructor
    · cases hx : alookup tok fi.2 with
      | none => simp only [hx, Option.getD_none]; exact nodup_sinsert _ List.nodup_nil
      | some s0 =>
        simp only [hx, Option.getD_some]
        exact nodup_sinsert _ ((h _ (alookup_mem hx)).1)
    · intro j hj
      rcases mem_sinsert.mp hj with rfl | hj2
      · exact Or.inr rfl
      · cases hx : alookup tok fi.2 with
        | none => rw [hx] at hj2; simp at hj2
        | some s0 =>
          rw [hx] at hj2
          exact Or.inl ((h _ (alookup_mem hx)).2 j hj2)
  · exact ⟨(h e he2).1, fun j hj => Or.inl ((h e he2).2 j hj)⟩

theorem foldl_indexToken_wfEntries (id : ℕ) (tokens : List Str) :
    ∀ (fi : List ((ℕ × Str) × ℕ) × List (Str × List ℕ)) (P : ℕ → Prop),
      WFEntries fi.2 P →
      WFEntries (tokens.foldl (indexToken id) fi).2 (fun j => P j ∨ j = id) := by
  induction tokens with
  | nil =>
    intro fi P h
    exact wfEntries_mono h (fun j hj => Or.inl hj)
  | cons t rest ih =>
    intro fi P h
    rw [List.foldl_cons]
    exact wfEntries_mono (ih _ _ (indexToken_wfEntries id t h))
      (fun j hj => by
        rcases hj with (hj | hj) | hj
        · exact Or.inl hj
        · exact Or.inr hj
        · exact Or.inr hj)

theorem mem_collectSets {i : Index} {tokens : List Str} {s : List ℕ}
    (h : s ∈ collectSets i tokens) : ∃ t, alookup t i.index = some s := by
  rcases List.mem_filterMap.mp h with ⟨t, _, ht⟩
  exact ⟨t, ht⟩

theorem candidates_nodup {i : Index} {tokens : List Str} (h : i.WF) :
    (candidates i tokens).Nodup := by
  unfold candidates
  cases hcs : collectSets i tokens with
  | nil => simp
  | cons s rest =>
    have hs : s ∈ collectSets i tokens := by
      rw [hcs]
      exact List.mem_cons_self _ _
    rcases mem_collectSets hs with ⟨t, ht⟩
    exact ((h _ (alookup_mem ht)).1).filter _

theorem candidates_isSome {i : Index} {tokens : List Str} (h : i.WF) :
    ∀ d ∈ candidates i tokens, (alookup d i.documents).isSome = true := by
  unfold candidates
  cases hcs : collectSets i tokens with
  | nil => simp
  | cons s rest =>
    intro d hd
    have hds : d ∈ s := (List.mem_filter.mp hd).1
    have hs : s ∈ collectSets i tokens := by
      rw [hcs]
      exact List.mem_cons_self _ _
    rcases mem_collectSets hs with ⟨t, ht⟩
    exact (h _ (alookup_mem ht)).2 d hds

/-! Generic facts about ingestion used by several claims. -/

theorem indexDocument_skip (stem : Str → Str) (i : Index) (a : Article)
    (h : (alookup a.getId i.documents).isSome = true) :
    indexDocument stem i a = i := by
  unfold indexDocument
  simp [h]

theorem indexDocument_contains (stem : Str → Str) (i : Index) (a : Article) :
    (alookup a.getId (indexDocument stem i a).documents).isSome = true := by
  unfold indexDocument
  by_cases h : (alookup a.getId i.documents).isSome = true
  · simp [h]
  · simp only [h, if_false, Bool.false_eq_true]
    simp [alookup_ainsert_self]

/-- The empty index is well-formed. -/
theorem Index.new_WF : Index.new.WF := by
  intro e he
  simp [Index.new] at he

/-- Ingestion preserves well-formedness of the postings table, so every index
built by repeated ingestion from the empty index satisfies `Index.WF`. -/
theorem indexDocument_WF (stem : Str → Str) (i : Index) (a : Article)
    (h : i.WF) : (indexDocument stem i a).WF := by
  by_cases hc : (alookup a.getId i.documents).isSome = true
  · rw [indexDocument_skip stem i a hc]
    exact h
  · unfold indexDocument
    simp only [hc, if_false, Bool.false_eq_true]
    intro e he
    have hf := foldl_indexToken_wfEntries a.getId
      (Filters.filter stem a.fulltext) (i.freq, i.index)
      (fun j => (alookup j i.documents).isSome = true) h e he
    refine ⟨hf.1, fun j hj => ?_⟩
    rcases hf.2 j hj with hj2 | hj2
    · exact isSome_alookup_ainsert _ _ _ _ hj2
    · subst hj2
      rw [alookup_ainsert_self]
      rfl

/-- C1.  The posting-set collection of `query_index` keeps exactly the posting
sets of the normalized query tokens that have an entry in the inverted index
(absent tokens are skipped), and a document id is a candidate exactly when at
least one posting set was collected and the id lies in every collected posting
set — i.e. the candidate set is the intersection of the collected sets, and it
is empty when no set was collected. -/
theorem claim_C1 (i : Index) (stem : Str → Str) (q : Str) (d : ℕ) :
    (∀ s, s ∈ collectSets i (Filters.filter stem q) ↔
        ∃ t ∈ Filters.filter stem q, alookup t i.index = some s) ∧
    (d ∈ candidates i (Filters.filter stem q) ↔
        (collectSets i (Filters.filter stem q) ≠ [] ∧
         ∀ s ∈ collectSets i (Filters.filter stem q), d ∈ s)) := by
  constructor
  · intro s
    unfold collectSets
    exact List.mem_filterMap
  · unfold candidates
    cases hcs : collectSets i (Filters.filter stem q) with
    | nil => simp
    | cons s rest =>
      simp only [List.mem_filter, List.all_eq_true, decide_eq_true_eq, ne_eq,
        List.forall_mem_cons, List.cons_ne_nil, not_false_iff, true_and]

/-- C2.  The score of any document for a query is the sum, over every
occurrence of every normalized query token in its original order, of
`idf * term_frequency` with `idf = log10(total_document_count /
term_frequency)` (tokens with no frequency entry contribute nothing), and
whatever the iteration order of the candidate set, the returned ids are
ordered by non-increasing score. -/
theorem claim_C2 (l10 : ℚ → ℚ) (stem : Str → Str) (i : Index) (q : Str) :
    (∀ id : ℕ, score l10 i (Filters.filter stem q) id =
        ((Filters.filter stem q).map (fun t =>
          match alookup (id, t) i.freq with
          | some tf => l10 ((i.documents.length : ℚ) / (tf : ℚ)) * (tf : ℚ)
          | none => (0 : ℚ))).sum) ∧
    (∀ cands : List ℕ,
      (queryIndexEnum l10 stem i q cands).Pairwise (fun a b =>
        score l10 i (Filters.filter stem q) b ≤
          score l10 i (Filters.filter stem q) a)) := by
  constructor
  · intro id
    exact score_eq_sum l10 i _ id
  · intro cands
    simp only [queryIndexEnum]
    rw [List.pairwise_map]
    refine List.Pairwise.imp_of_mem ?_ (sortByScoreDesc_pairwise _)
    intro p r hp hr hpr
    rcases List.mem_map.mp ((sortByScoreDesc_perm _).subset hp) with ⟨ip, _, hpe⟩
    rcases List.mem_map.mp ((sortByScoreDesc_perm _).subset hr) with ⟨ir, _, hre⟩
    rw [← hpe, ← hre] at hpr ⊢
    exact hpr

/-- C3.  Re-ingesting a document whose id is already present returns success
and leaves the whole index state (documents, postings and frequencies)
exactly as after the first ingestion. -/
theorem claim_C3 (stem : Str → Str) (i : Index) (a : Article) :
    indexDocumentR stem (indexDocument stem i a) a =
      Except.ok (indexDocument stem i a) := by
  unfold indexDocumentR
  rw [indexDocument_skip stem _ a (indexDocument_contains stem i a)]

/-- C4.  Ingestion preserves the index-consistency invariant: a `(doc_id,
term)` key is present in the frequency table with positive count exactly when
`doc_id` is in the postings set of `term`, and every id of a postings set is
a key of the document store. -/
theorem claim_C4 (stem : Str → Str) (i : Index) (a : Article)
    (h : i.Consistent) : (indexDocument stem i a).Consistent := by
  by_cases hc : (alookup a.getId i.documents).isSome = true
  · rw [indexDocument_skip stem i a hc]
    exact h
  · unfold indexDocument
    simp only [hc, if_false, Bool.false_eq_true]
    unfold Index.Consistent
    constructor
    · exact foldl_indexToken_consistentFI a.getId _ (i.freq, i.index) h.1
    · refine coveredBy_mono
        (foldl_indexToken_coveredBy a.getId _ (i.freq, i.index) _ h.2) ?_
      intro j hj
      rcases hj with hj | hj
      · exact isSome_alookup_ainsert _ _ _ _ hj
      · subst hj
        rw [alookup_ainsert_self]
        rfl

/-- C9.  An `Article` whose id field is unset reports id 0, so all URL-less
documents share document id 0: after one URL-less document is ingested the
documents map holds it under key 0, and ingesting a second URL-less document
is silently skipped as a duplicate, leaving the state unchanged. -/
theorem claim_C9 (stem : Str → Str) (i : Index) (a1 a2 : Article)
    (h1 : a1.id = none) (h2 : a2.id = none) :
    a1.getId = 0 ∧ a2.getId = 0 ∧
    (alookup 0 i.documents = none →
      alookup 0 (indexDocument stem i a1).documents = some a1) ∧
    indexDocument stem (indexDocument stem i a1) a2 =
      indexDocument stem i a1 := by
  have g1 : a1.getId = 0 := by simp [Article.getId, h1]
  have g2 : a2.getId = 0 := by simp [Article.getId, h2]
  refine ⟨g1, g2, ?_, ?_⟩
  · intro h0
    unfold indexDocument
    have hnone : (alookup a1.getId i.documents).isSome = false := by
      rw [g1, h0]
      rfl
    simp only [hnone, if_false, Bool.false_eq_true]
    rw [g1, alookup_ainsert_self]
  · have hc : (alookup a2.getId (indexDocument stem i a1).documents).isSome = true := by
      rw [g2, ← g1]
      exact indexDocument_contains stem i a1
    exact indexDocument_skip stem _ a2 hc

/-- C10.  On a well-formed index, every id returned by `query_index` occurs
exactly once and is a key of the documents map, so `document(id)` succeeds on
every returned id. -/
theorem claim_C10 (l10 : ℚ → ℚ) (stem : Str → Str) (i : Index) (q : Str)
    (h : i.WF) :
    (queryIndex l10 stem i q).Nodup ∧
    ∀ id ∈ queryIndex l10 stem i q, (i.document id).isSome = true := by
  have hperm := queryIndexEnum_perm l10 stem i q
    (candidates i (Filters.filter stem q))
  constructor
  · exact hperm.symm.nodup (candidates_nodup h)
  · intro id hid
    exact candidates_isSome h id (hperm.subset hid)

/-! Concrete instantiations used by witnesses and counterexamples. -/

/-- Identity function standing in for the abstract stemmer on tokens that are
already stems. -/
def idStem : Str → Str := fun t => t

/-- An article whose abstract is empty, so its full text `"x "` tokenizes to
`["x", ""]` and the empty token gets indexed. -/
def artE : Article := { id := some 5, title := "x".data, abstr := [], url := none }

def idxE : Index := indexDocument idStem Index.new artE

def artT1 : Article := { id := some 1, title := "cat".data, abstr := "dog".data, url := none }

def artT2 : Article := { id := some 2, title := "cat".data, abstr := "emu".data, url := none }

/-- Two documents that each contain `cat` once: their scores for the query
`cat` are equal. -/
def idxT : Index := indexDocument idStem (indexDocument idStem Index.new artT1) artT2

def artD1 : Article := { id := some 1, title := "cat".data, abstr := "cat".data, url := none }

/-- Document 1 contains `cat` twice, document 2 once: distinct scores. -/
def idxD : Index := indexDocument idStem (indexDocument idStem Index.new artD1) artT2

/-- A URL parser that accepts only the string `ok`. -/
def puEx : Str → Option Str := fun s => if s = "ok".data then some s else none

/-- C5 counterexample.  The empty input does not yield an empty token
sequence: Rust `"".split(' ')` yields one empty token, which is not a
stopword, so the pipeline emits one (stemmed empty) token. -/
theorem claim_C5_cex : Filters.filter (fun t => t) [] ≠ [] := by decide

/-- C5 amended.  The normalizer is the five-stage pipeline — split on the
ASCII space character only, lowercase, strip ASCII punctuation (keeping other
characters), drop exact stopword matches, stem — but the empty input yields
the one-element sequence holding the stem of the empty token, not the empty
sequence. -/
theorem claim_C5_amended (stem : Str → Str) (text : Str) :
    Filters.filter stem text =
      ((((Filters.tokenize text).map (fun t => t.map Filters.lowerChar)).map
          (fun t => t.filter (fun c => !(Filters.isAsciiPunct c)))).filter
          (fun t => !(Filters.STOPWORDS.contains t))).map stem ∧
    Filters.filter stem [] = [stem []] :=
  ⟨rfl, rfl⟩

/-- C6 counterexample.  Querying the empty string is not guaranteed to return
an empty result: the empty string normalizes to one empty token, and an index
whose postings contain the empty token (here from a document whose abstract is
empty) returns that document. -/
theorem claim_C6_cex : queryIndex (fun x => x) idStem idxE [] ≠ [] := by
  have h1 : Filters.filter idStem ([] : Str) = [[]] := by decide
  have h2 : candidates idxE [[]] = [5] := by decide
  have h3 : alookup ((5 : ℕ), ([] : Str)) idxE.freq = some 1 := by decide
  have h : queryIndex (fun x => x) idStem idxE [] = [5] := by
    simp [queryIndex, queryIndexEnum, h1, h2, score, h3, sortByScoreDesc,
      insertByScore]
  rw [h]
  simp

/-- C6 amended.  A query that normalizes to zero tokens (for instance a
string consisting only of stopwords) returns an empty result sequence, and is
not an error; the empty string, however, normalizes to one empty token, not
zero. -/
theorem claim_C6_amended (l10 : ℚ → ℚ) (stem : Str → Str) (i : Index)
    (q : Str) (h : Filters.filter stem q = []) :
    queryIndex l10 stem i q = [] := by
  unfold queryIndex queryIndexEnum candidates collectSets
  rw [h]
  simp [sortByScoreDesc]

theorem claim_C6_w : queryIndex (fun x => x) idStem idxE "the".data = [] :=
  claim_C6_amended _ _ _ _ (by decide)

theorem foldl_processEvent_none (pu : Str → Option Str) (crc : Str → ℕ)
    (stem : Str → Str) (events : List XmlEvent) :
    events.foldl (processEvent pu crc stem) none = none := by
  induction events with
  | nil => rfl
  | cons e rest ih =>
    rw [List.foldl_cons]
    exact ih

/-- C7 counterexample.  A single document with an unparseable URL does not
get skipped: the whole build panics (`none`), and the later well-formed
document is never ingested — although that document alone would have been
ingested (the same stream without the bad record builds an index of size 1). -/
theorem claim_C7_cex :
    fromEvents puEx (fun _ => 7) idStem
      [XmlEvent.startDoc, XmlEvent.titleEv "cat".data, XmlEvent.urlEv "bad".data,
       XmlEvent.endDoc, XmlEvent.startDoc, XmlEvent.titleEv "dog".data,
       XmlEvent.urlEv "ok".data, XmlEvent.endDoc] = none ∧
    (fromEvents puEx (fun _ => 7) idStem
      [XmlEvent.startDoc, XmlEvent.titleEv "dog".data, XmlEvent.urlEv "ok".data,
       XmlEvent.endDoc]).map Index.size = some 1 := by
  constructor <;> decide

/-- C7 amended.  When a document's source URL cannot be parsed, `set_url`'s
`unwrap` panics and the whole build aborts: whatever events follow, the build
returns no index at all (no skip-and-continue happens). -/
theorem claim_C7_amended (pu : Str → Option Str) (crc : Str → ℕ)
    (stem : Str → Str) (pre post : List XmlEvent) (u : Str) (a : Article)
    (idx : Index) (hu : pu u = none)
    (hpre : pre.foldl (processEvent pu crc stem) (some (none, Index.new)) =
      some (some a, idx)) :
    fromEvents pu crc stem (pre ++ XmlEvent.urlEv u :: post) = none := by
  unfold fromEvents
  rw [List.foldl_append, hpre, List.foldl_cons]
  have hstep : processEvent pu crc stem (some (some a, idx))
      (XmlEvent.urlEv u) = none := by
    simp [processEvent, setUrl, hu]
  rw [hstep, foldl_processEvent_none]
  rfl

theorem claim_C7_w :
    fromEvents (fun _ => none) (fun _ => 0) idStem
      ([XmlEvent.startDoc] ++ XmlEvent.urlEv "bad".data :: []) = none :=
  claim_C7_amended (fun _ => none) (fun _ => 0) idStem [XmlEvent.startDoc] []
    "bad".data defaultArticle Index.new rfl (by decide)

/-- C8 counterexample.  `query_index` is not a deterministic function of the
index and the query alone: two candidates with equal scores are emitted in
the iteration order of the candidate hash set, so two valid iteration orders
of the same candidate set produce different output sequences. -/
theorem claim_C8_cex :
    ¬ (∀ c1 c2 : List ℕ,
        c1.Perm (candidates idxT (Filters.filter idStem "cat".data)) →
        c2.Perm (candidates idxT (Filters.filter idStem "cat".data)) →
        queryIndexEnum (fun x => x) idStem idxT "cat".data c1 =
          queryIndexEnum (fun x => x) idStem idxT "cat".data c2) := by
  intro h
  have h1 : Filters.filter idStem "cat".data = ["cat".data] := by decide
  have h3 : alookup ((1 : ℕ), "cat".data) idxT.freq = some 1 := by decide
  have h4 : alookup ((2 : ℕ), "cat".data) idxT.freq = some 1 := by decide
  have h12 := h [1, 2] [2, 1] (by decide) (by decide)
  have e1 : queryIndexEnum (fun x => x) idStem idxT "cat".data [1, 2] = [1, 2] := by
    simp [queryIndexEnum, h1, score, h3, h4, sortByScoreDesc, insertByScore]
  have e2 : queryIndexEnum (fun x => x) idStem idxT "cat".data [2, 1] = [2, 1] := by
    simp [queryIndexEnum, h1, score, h3, h4, sortByScoreDesc, insertByScore]
  rw [e1, e2] at h12
  simp at h12

/-- C8 amended.  The ranking phase is deterministic once the iteration order
of the candidate set is fixed, and whenever the candidates' scores are
pairwise distinct the output does not depend on that iteration order at all;
only equal-scored candidates are ordered by the (non-deterministic) hash
iteration order. -/
theorem claim_C8_amended (l10 : ℚ → ℚ) (stem : Str → Str) (i : Index)
    (q : Str) (c1 c2 : List ℕ) (hp : c1.Perm c2)
    (hinj : ∀ a ∈ c1, ∀ b ∈ c1,
      score l10 i (Filters.filter stem q) a =
        score l10 i (Filters.filter stem q) b → a = b) :
    queryIndexEnum l10 stem i q c1 = queryIndexEnum l10 stem i q c2 := by
  simp only [queryIndexEnum]
  congr 1
  refine pairwise_perm_eq _ _ ?_ (sortByScoreDesc_pairwise _)
    (sortByScoreDesc_pairwise _) ?_
  · exact (sortByScoreDesc_perm _).trans ((hp.map _).trans
      (sortByScoreDesc_perm _).symm)
  · intro p hp1 r hr1 hpr hrp
    rcases List.mem_map.mp ((sortByScoreDesc_perm _).subset hp1) with ⟨ip, hip, hpe⟩
    rcases List.mem_map.mp ((sortByScoreDesc_perm _).subset hr1) with ⟨ir, hir, hre⟩
    have hsc : score l10 i (Filters.filter stem q) ip =
        score l10 i (Filters.filter stem q) ir := by
      have h2 := le_antisymm hrp hpr
      rw [← hpe, ← hre] at h2
      exact h2
    have hii : ip = ir := hinj ip hip ir hir hsc
    rw [← hpe, ← hre, hii]

theorem claim_C4_w : (indexDocument idStem Index.new artT1).Consistent :=
  claim_C4 idStem Index.new artT1
    ⟨fun id t => by simp [Index.new, alookup],
     fun t s hs => by simp [Index.new, alookup] at hs⟩

def artN1 : Article := { id := none, title := "cat".data, abstr := "dog".data, url := none }

def artN2 : Article := { id := none, title := "emu".data, abstr := "fox".data, url := none }

theorem claim_C9_w :
    artN1.getId = 0 ∧ artN2.getId = 0 ∧
    (alookup 0 Index.new.documents = none →
      alookup 0 (indexDocument idStem Index.new artN1).documents = some artN1) ∧
    indexDocument idStem (indexDocument idStem Index.new artN1) artN2 =
      indexDocument idStem Index.new artN1 :=
  claim_C9 idStem Index.new artN1 artN2 rfl rfl

theorem claim_C10_w :
    (queryIndex (fun x => x) idStem idxT "cat".data).Nodup ∧
    ∀ id ∈ queryIndex (fun x => x) idStem idxT "cat".data,
      (idxT.document id).isSome = true :=
  claim_C10 (fun x => x) idStem idxT "cat".data
    (by unfold Index.WF; decide)

theorem claim_C8_w :
    List.Perm [1, 2] [2, 1] ∧
    (∀ a ∈ ([1, 2] : List ℕ), ∀ b ∈ ([1, 2] : List ℕ),
      score (fun x => x * x) idxD (Filters.filter idStem "cat".data) a =
        score (fun x => x * x) idxD (Filters.filter idStem "cat".data) b → a = b) ∧
    queryIndexEnum (fun x => x * x) idStem idxD "cat".data [1, 2] =
      queryIndexEnum (fun x => x * x) idStem idxD "cat".data [2, 1] := by
  have h1 : Filters.filter idStem "cat".data = ["cat".data] := by decide
  have h3 : alookup ((1 : ℕ), "cat".data) idxD.freq = some 2 := by decide
  have h4 : alookup ((2 : ℕ), "cat".data) idxD.freq = some 1 := by decide
  have h5 : idxD.documents.length = 2 := by decide
  have hs1 : score (fun x => x * x) idxD (Filters.filter idStem "cat".data) 1 = 2 := by
    rw [h1]
    norm_num [score, h3, h5]
  have hs2 : score (fun x => x * x) idxD (Filters.filter idStem "cat".data) 2 = 4 := by
    rw [h1]
    norm_num [score, h4, h5]
  have hinj : ∀ a ∈ ([1, 2] : List ℕ), ∀ b ∈ ([1, 2] : List ℕ),
      score (fun x => x * x) idxD (Filters.filter idStem "cat".data) a =
        score (fun x => x * x) idxD (Filters.filter idStem "cat".data) b → a = b := by
    intro a ha b hb hab
    fin_cases ha <;> fin_cases hb <;> simp only [hs1, hs2] at hab <;>
      norm_num at hab ⊢
  exact ⟨by decide, hinj,
    claim_C8_amended (fun x => x * x) idStem idxD "cat".data [1, 2] [2, 1]
      (by decide) hinj⟩

end Goedesearch
